import Mathlib

/-!
Formalisation of the `ZIndexDistributor` parallel index-distribution primitive
declared in `src/hotspot/share/gc/z/zIndexDistributor.hpp`.

Only the class declaration of `ZIndexDistributor` is available in the sources;
the implementation file (`zIndexDistributor.inline.hpp`, which defines the
`ZIndexDistributorSequential` and `ZIndexDistributorClaimTree` strategy classes
together with the member-function bodies) is not.  Every definition below that
embeds a part of that missing implementation is modelled from the specification
document and marked `Modelled from the spec:` in its doc comment.  The
declared interface itself (constructor taking `int count`, static
`size_t get_count(size_t max_count)`) is embedded from the header.
-/

set_option maxHeartbeats 1000000

namespace ZIndexDist

/-- The process-wide strategy selection (`ZIndexDistributorStrategy`): either
the Sequential strategy, or the ClaimTree strategy together with its tunable
fan-out and leaf-size constants. -/
inductive ZStrategy where
  | sequential : ZStrategy
  | claimTree (fanOut leafSize : Nat) : ZStrategy

/-- Sanity of the tunable constants: a claim tree has fan-out at least 2 and a
positive leaf size. -/
def validStrategy : ZStrategy → Prop
  | .sequential => True
  | .claimTree f l => 2 ≤ f ∧ 1 ≤ l

/-- Modelled from the spec: the core of `ZIndexDistributorClaimTree::get_count`
(missing `zIndexDistributor.inline.hpp`).  Starting from an accumulated count
`acc` (initially one leaf) it multiplies by the fan-out `f`, i.e. adds one
complete tree level, until the accumulated count reaches the request `x`.  The
`fuel` argument bounds the recursion; `fuel = x` always suffices. -/
def adjustLoop (f x : Nat) : Nat → Nat → Nat
  | acc, 0 => acc
  | acc, fuel + 1 => if x ≤ acc then acc else adjustLoop f x (acc * f) fuel

/-- Modelled from the spec: `ZIndexDistributorClaimTree::get_count` — rounds
`x` up to the smallest count of the form `l * f ^ d`, a complete tree of `d`
levels of fan-out `f` over leaves of size `l`. -/
def claimTreeGetCount (f l x : Nat) : Nat := adjustLoop f x l x

/-- Modelled from the spec: `ZIndexDistributor::get_count(size_t max_count)` —
returns a count that is `max_count` or larger and upholds the requirements of
the strategy specified by `ZIndexDistributorStrategy`.  The Sequential strategy
has no structural requirement; the ClaimTree strategy requires a count that
tiles evenly into complete levels of leaves. -/
def get_count : ZStrategy → Nat → Nat
  | .sequential, x => x
  | .claimTree f l, x => claimTreeGetCount f l x

/-- A count tiles evenly into complete levels/leaves of fan-out `f` and leaf
size `l` exactly when it is `l * f ^ d` for some number of levels `d`. -/
def TilesEvenly (f l c : Nat) : Prop := ∃ d : Nat, c = l * f ^ d

lemma adjustLoop_ge (f x : Nat) (hf : 2 ≤ f) :
    ∀ fuel acc, 1 ≤ acc → x ≤ fuel + acc → x ≤ adjustLoop f x acc fuel := by
  intro fuel
  induction fuel with
  | zero =>
      intro acc _ h2
      simpa [adjustLoop] using h2
  | succ n ih =>
      intro acc h1 h2
      by_cases hx : x ≤ acc
      · simp [adjustLoop, hx]
      · have hmul : acc + 1 ≤ acc * f := by
          calc acc + 1 ≤ acc + acc := by omega
          _ = acc * 2 := by ring
          _ ≤ acc * f := Nat.mul_le_mul_left acc hf
        have h1f : 1 ≤ acc * f := by omega
        have h2f : x ≤ n + acc * f := by omega
        simpa [adjustLoop, hx] using ih (acc * f) h1f h2f

lemma adjustLoop_shape (f x : Nat) :
    ∀ fuel acc, ∃ d : Nat, adjustLoop f x acc fuel = acc * f ^ d ∧
      ∀ e, e < d → acc * f ^ e < x := by
  intro fuel
  induction fuel with
  | zero =>
      intro acc
      exact ⟨0, by simp [adjustLoop], fun e he => absurd he (Nat.not_lt_zero e)⟩
  | succ n ih =>
      intro acc
      by_cases hx : x ≤ acc
      · exact ⟨0, by simp [adjustLoop, hx], fun e he => absurd he (Nat.not_lt_zero e)⟩
      · obtain ⟨d, hd, hmin⟩ := ih (acc * f)
        refine ⟨d + 1, ?_, ?_⟩
        · rw [show adjustLoop f x acc (n + 1) = adjustLoop f x (acc * f) n by
            simp [adjustLoop, hx]]
          rw [hd, pow_succ]
          ring
        · intro e he
          match e with
          | 0 =>
              simpa using Nat.lt_of_not_le hx
          | e + 1 =>
              have h := hmin e (by omega)
              calc acc * f ^ (e + 1) = acc * f * f ^ e := by ring
              _ < x := h

lemma adjustLoop_min (f x : Nat) (hf : 1 ≤ f) :
    ∀ fuel acc e, x ≤ acc * f ^ e → adjustLoop f x acc fuel ≤ acc * f ^ e := by
  intro fuel acc e hx
  obtain ⟨d, hd, hmin⟩ := adjustLoop_shape f x fuel acc
  rw [hd]
  rcases le_or_lt d e with hde | hed
  · exact Nat.mul_le_mul_left acc (Nat.pow_le_pow_right hf hde)
  · exact absurd hx (Nat.not_le_of_lt (hmin e hed))

lemma get_count_ge (s : ZStrategy) (x : Nat) (hs : validStrategy s) :
    x ≤ get_count s x := by
  cases s with
  | sequential => exact Nat.le_refl x
  | claimTree f l =>
      obtain ⟨hf, hl⟩ := hs
      exact adjustLoop_ge f x hf x l hl (by omega)

lemma get_count_tiles (f l x : Nat) :
    TilesEvenly f l (get_count (.claimTree f l) x) := by
  obtain ⟨d, hd, _⟩ := adjustLoop_shape f x x l
  exact ⟨d, hd⟩

lemma get_count_min (f l x c : Nat) (hf : 1 ≤ f) (ht : TilesEvenly f l c)
    (hc : x ≤ c) : get_count (.claimTree f l) x ≤ c := by
  obtain ⟨d, rfl⟩ := ht
  exact adjustLoop_min f x hf x l d hc

lemma get_count_idem (s : ZStrategy) (x : Nat) (hs : validStrategy s) :
    get_count s (get_count s x) = get_count s x := by
  cases s with
  | sequential => rfl
  | claimTree f l =>
      obtain ⟨hf, hl⟩ := hs
      refine Nat.le_antisymm ?_ ?_
      · exact get_count_min f l (get_count (.claimTree f l) x)
          (get_count (.claimTree f l) x) (by omega)
          (get_count_tiles f l x) (Nat.le_refl _)
      · exact get_count_ge (.claimTree f l) (get_count (.claimTree f l) x) ⟨hf, hl⟩

/-- C2: for every `x ≥ 0`, `get_count x ≥ x` — the static sizing helper never
returns a count smaller than the caller-requested count, for whichever
(sane) strategy configuration is active. -/
theorem getCount_ge_requested (s : ZStrategy) (x : Nat) (hs : validStrategy s) :
    x ≤ get_count s x :=
  get_count_ge s x hs

/-- Witness for C2 at the ClaimTree strategy with fan-out 2 and leaf size 4,
requested count 10. -/
theorem getCount_ge_requested_witness :
    validStrategy (.claimTree 2 4) ∧ 10 ≤ get_count (.claimTree 2 4) 10 :=
  ⟨⟨by omega, by omega⟩, getCount_ge_requested (.claimTree 2 4) 10 ⟨by omega, by omega⟩⟩

/-- C3: for every `x ≥ 0`, `get_count (get_count x) = get_count x` — every
value returned by `get_count` is a fixed point of `get_count`, for whichever
(sane) strategy configuration is active. -/
theorem getCount_idempotent (s : ZStrategy) (x : Nat) (hs : validStrategy s) :
    get_count s (get_count s x) = get_count s x :=
  get_count_idem s x hs

/-- Witness for C3 at the ClaimTree strategy with fan-out 2 and leaf size 4,
requested count 10. -/
theorem getCount_idempotent_witness :
    validStrategy (.claimTree 2 4) ∧
      get_count (.claimTree 2 4) (get_count (.claimTree 2 4) 10) =
        get_count (.claimTree 2 4) 10 :=
  ⟨⟨by omega, by omega⟩, getCount_idempotent (.claimTree 2 4) 10 ⟨by omega, by omega⟩⟩

/-- C7: under the ClaimTree strategy with fan-out `f` and leaf size `l`,
`get_count` returns a count that tiles evenly into complete levels of leaves,
is at least the requested count, and is the smallest such count. -/
theorem claimTree_getCount_least_tiling (f l x : Nat) (hf : 2 ≤ f) (hl : 1 ≤ l) :
    TilesEvenly f l (get_count (.claimTree f l) x) ∧
      x ≤ get_count (.claimTree f l) x ∧
      ∀ c, TilesEvenly f l c → x ≤ c → get_count (.claimTree f l) x ≤ c := by
  refine ⟨get_count_tiles f l x, get_count_ge (.claimTree f l) x ⟨hf, hl⟩, ?_⟩
  intro c ht hc
  exact get_count_min f l x c (by omega) ht hc

/-- Witness for C7 at fan-out 2, leaf size 4, `max_count = 10`: the adjusted
count is 16, the smallest count `≥ 10` of the form `4 * 2 ^ d`. -/
theorem claimTree_getCount_least_tiling_witness :
    (2 ≤ 2 ∧ 1 ≤ 4) ∧
      (TilesEvenly 2 4 (get_count (.claimTree 2 4) 10) ∧
        10 ≤ get_count (.claimTree 2 4) 10 ∧
        ∀ c, TilesEvenly 2 4 c → 10 ≤ c → get_count (.claimTree 2 4) 10 ≤ c) ∧
      get_count (.claimTree 2 4) 10 = 16 :=
  ⟨⟨by omega, by omega⟩,
    claimTree_getCount_least_tiling 2 4 10 (by omega) (by omega), by decide⟩

/-- The construction-time assertion modelled from the spec: a ClaimTree-backed
distributor may only be constructed with a count obtained from `get_count` for
the same strategy configuration, i.e. (by idempotence) a fixed point of
`get_count`.  The Sequential strategy imposes no requirement, and indeed for it
the check is vacuously true since its `get_count` is the identity. -/
def ctorAssertOK (s : ZStrategy) (count : Nat) : Bool :=
  get_count s count == count

/-- Modelled from the spec: the `ZIndexDistributor(int count)` constructor with
its contract check.  Construction succeeds (returning the distributor, here
represented by its strategy configuration and count) exactly when the
assertion holds; otherwise the assertion fires, modelled as `none`. -/
def mkZIndexDistributor (s : ZStrategy) (count : Nat) : Option (ZStrategy × Nat) :=
  if ctorAssertOK s count then some (s, count) else none

/-- C9: constructing a ClaimTree-backed distributor with a count that is not a
`get_count` fixed point fires the construction-time assertion (`none`), and
under the precondition that the count was obtained from `get_count` for the
same configuration the assertion never fires. -/
theorem ctor_assert_fixed_point (s : ZStrategy) (count : Nat) (hs : validStrategy s) :
    (mkZIndexDistributor s count = none ↔ get_count s count ≠ count) ∧
      ∀ x, count = get_count s x → mkZIndexDistributor s count = some (s, count) := by
  constructor
  · by_cases h : get_count s count = count
    · simp [mkZIndexDistributor, ctorAssertOK, h]
    · simp [mkZIndexDistributor, ctorAssertOK, h]
  · intro x hx
    have hfix : get_count s count = count := by
      rw [hx]
      exact get_count_idem s x hs
    simp [mkZIndexDistributor, ctorAssertOK, hfix]

/-- Witness for C9 at fan-out 2, leaf size 4: the count 16 obtained from
`get_count` at request 10 constructs successfully, while the raw count 10
(not a `get_count` fixed point, since `get_count 10 = 16`) fires the check. -/
theorem ctor_assert_fixed_point_witness :
    mkZIndexDistributor (.claimTree 2 4) 16 = some (.claimTree 2 4, 16) ∧
      mkZIndexDistributor (.claimTree 2 4) 10 = none := by
  constructor
  · exact (ctor_assert_fixed_point (.claimTree 2 4) 16 ⟨by omega, by omega⟩).2
      10 (by decide)
  · exact (ctor_assert_fixed_point (.claimTree 2 4) 10 ⟨by omega, by omega⟩).1.mpr
      (by decide)

/-- The largest value of the C++ type `int` (32-bit in HotSpot): the
constructor parameter `int count` can hold exactly the counts up to this
bound. -/
def cppIntMax : Nat := 2 ^ 31 - 1

/-- A count can be passed to the `ZIndexDistributor(int count)` constructor
without a narrowing conversion exactly when it fits in a non-negative `int`. -/
def fitsInCppInt (n : Nat) : Prop := n ≤ cppIntMax

/-- C10: the interface is asymmetrically typed — `get_count` takes and returns
`size_t` while the constructor takes `int` — so whenever the adjusted count
`get_count x` exceeds the maximum `int` value it cannot be passed to the
constructor without a narrowing conversion. -/
theorem ctor_int_narrowing (s : ZStrategy) (x : Nat)
    (h : cppIntMax < get_count s x) : ¬ fitsInCppInt (get_count s x) := by
  intro hfit
  exact absurd h (Nat.not_lt_of_le hfit)

/-- Witness for C10: with fan-out 2 and leaf size 4, the request `2 ^ 31`
adjusts to a count exceeding `cppIntMax`, which hence does not fit in `int`. -/
theorem ctor_int_narrowing_witness :
    ¬ fitsInCppInt (get_count (.claimTree 2 4) (2 ^ 31)) := by
  have hge : 2 ^ 31 ≤ get_count (.claimTree 2 4) (2 ^ 31) :=
    get_count_ge (.claimTree 2 4) (2 ^ 31) ⟨by omega, by omega⟩
  exact ctor_int_narrowing (.claimTree 2 4) (2 ^ 31)
    (by unfold cppIntMax; omega)

/-- Modelled from the spec: a claim-tree node of the ClaimTree strategy
(missing `zIndexDistributor.inline.hpp`).  A leaf holds its sub-range size and
its atomic claim cursor; an internal node holds the atomic marker recording
that its whole sub-range has been claimed, plus its two children (the spec
allows binary or k-ary fan-out; the model uses the binary instance). -/
inductive CTree where
  | leaf (size cursor : Nat) : CTree
  | node (marked : Bool) (left right : CTree) : CTree

/-- Number of indices in the sub-range covered by a (sub)tree. -/
def CTree.size : CTree → Nat
  | .leaf s _ => s
  | .node _ l r => l.size + r.size

/-- Number of indices of the sub-range already claimed. -/
def CTree.claimed : CTree → Nat
  | .leaf _ c => c
  | .node _ l r => l.claimed + r.claimed

/-- Well-formedness: every leaf cursor is within its leaf's size. -/
def CTree.wfB : CTree → Bool
  | .leaf s c => decide (c ≤ s)
  | .node _ l r => l.wfB && r.wfB

/-- A (sub)tree is full when its whole sub-range has been claimed. -/
def CTree.fullB (t : CTree) : Bool := t.claimed == t.size

/-- The child-exhausted signal a node reports to its parent: a leaf reports
that its cursor has reached its size, an internal node reports its marker. -/
def CTree.flag : CTree → Bool
  | .leaf s c => decide (s ≤ c)
  | .node m _ _ => m

/-- Soundness of the exhausted markers, as a Boolean check: every marked
internal node has both children fully claimed. -/
def CTree.marksOKB : CTree → Bool
  | .leaf _ _ => true
  | .node m l r => (!m || (l.fullB && r.fullB)) && l.marksOKB && r.marksOKB

/-- Soundness of the exhausted markers, as a proposition: no node carries the
exhausted marker while one of its children still has an unclaimed index. -/
def MarksSound : CTree → Prop
  | .leaf _ _ => True
  | .node m l r =>
      (m = true → l.claimed = l.size ∧ r.claimed = r.size) ∧
        MarksSound l ∧ MarksSound r

/-- The multiset of indices already claimed out of a (sub)tree whose sub-range
starts at absolute index `off`: leaf cursors claim a prefix of each leaf's
sub-range, children cover consecutive sub-ranges. -/
def CTree.deliveredFrom : CTree → Nat → Multiset Nat
  | .leaf _ c, off => (Multiset.range c).map (fun k => off + k)
  | .node _ l r, off => l.deliveredFrom off + r.deliveredFrom (off + l.size)

/-- Modelled from the spec: one atomic claim of the ClaimTree strategy.  The
worker's descent ends at the leaf addressed by path `p`; if that leaf still
has an unclaimed index, the claim atomically advances the leaf cursor and
returns the claimed index (relative to the tree's sub-range), otherwise it
fails.  Quantifying over all paths subsumes every descent/caching policy a
worker may use. -/
def CTree.claimAt : CTree → List Bool → Option (CTree × Nat)
  | .leaf s c, [] => if c < s then some (.leaf s (c + 1), c) else none
  | .leaf _ _, _ :: _ => none
  | .node _ _ _, [] => none
  | .node m l r, false :: p =>
      match l.claimAt p with
      | some (l2, i) => some (.node m l2 r, i)
      | none => none
  | .node m l r, true :: p =>
      match r.claimAt p with
      | some (r2, i) => some (.node m l r2, l.size + i)
      | none => none

/-- Modelled from the spec: marking an internal node exhausted.  The node
addressed by path `p` may be marked once both of its children report their
child-exhausted signal. -/
def CTree.markAt : CTree → List Bool → Option CTree
  | .leaf _ _, _ => none
  | .node _ l r, [] =>
      if l.flag && r.flag then some (.node true l r) else none
  | .node m l r, false :: p =>
      match l.markAt p with
      | some l2 => some (.node m l2 r)
      | none => none
  | .node m l r, true :: p =>
      match r.markAt p with
      | some r2 => some (.node m l r2)
      | none => none

/-- Modelled from the spec: the initial claim tree for `d` complete levels of
binary fan-out over leaves of size `l` — all cursors at 0, no node marked. -/
def buildTree : Nat → Nat → CTree
  | 0, l => .leaf l 0
  | d + 1, l => .node false (buildTree d l) (buildTree d l)

lemma claimed_le_size (t : CTree) (h : t.wfB = true) : t.claimed ≤ t.size := by
  induction t with
  | leaf s c =>
      simp only [CTree.wfB, decide_eq_true_eq] at h
      exact h
  | node m l r ihl ihr =>
      simp only [CTree.wfB, Bool.and_eq_true] at h
      have h1 := ihl h.1
      have h2 := ihr h.2
      simp only [CTree.claimed, CTree.size]
      omega

lemma flag_full (t : CTree) (hwf : t.wfB = true) (hok : t.marksOKB = true)
    (hfl : t.flag = true) : t.claimed = t.size := by
  cases t with
  | leaf s c =>
      simp only [CTree.wfB, decide_eq_true_eq] at hwf
      simp only [CTree.flag, decide_eq_true_eq] at hfl
      simp only [CTree.claimed, CTree.size]
      omega
  | node m l r =>
      simp only [CTree.flag] at hfl
      subst hfl
      simp only [CTree.marksOKB, Bool.and_eq_true, Bool.or_eq_true,
        Bool.not_eq_true'] at hok
      rcases hok.1.1 with hcontra | hfull
      · cases hcontra
      · simp only [CTree.fullB, beq_iff_eq] at hfull
        simp only [CTree.claimed, CTree.size]
        omega

lemma marksOKB_sound (t : CTree) (h : t.marksOKB = true) : MarksSound t := by
  induction t with
  | leaf s c => trivial
  | node m l r ihl ihr =>
      simp only [CTree.marksOKB, Bool.and_eq_true, Bool.or_eq_true,
        Bool.not_eq_true'] at h
      refine ⟨?_, ihl h.1.2, ihr h.2⟩
      intro hm
      rcases h.1.1 with hcontra | hfull
      · rw [hm] at hcontra; cases hcontra
      · simp only [CTree.fullB, beq_iff_eq] at hfull
        exact hfull

lemma claimAt_spec (t : CTree) :
    ∀ (t2 : CTree) (p : List Bool) (i : Nat), t.claimAt p = some (t2, i) →
      t2.size = t.size ∧ t2.claimed = t.claimed + 1 ∧ i < t.size ∧
        (t.wfB = true → t2.wfB = true) ∧
        ∀ off, t2.deliveredFrom off = (off + i) ::ₘ t.deliveredFrom off := by
  induction t with
  | leaf s c =>
      intro t2 p i h
      cases p with
      | nil =>
          simp only [CTree.claimAt] at h
          by_cases hc : c < s
          · rw [if_pos hc] at h
            simp only [Option.some.injEq, Prod.mk.injEq] at h
            obtain ⟨rfl, rfl⟩ := h
            refine ⟨rfl, rfl, hc, ?_, ?_⟩
            · intro hwf
              simp only [CTree.wfB, decide_eq_true_eq] at hwf ⊢
              omega
            · intro off
              simp only [CTree.deliveredFrom, Multiset.range_succ, Multiset.map_cons]
          · rw [if_neg hc] at h
            cases h
      | cons b p => simp [CTree.claimAt] at h
  | node m l r ihl ihr =>
      intro t2 p i h
      cases p with
      | nil => simp [CTree.claimAt] at h
      | cons b p =>
          cases b
          · simp only [CTree.claimAt] at h
            cases hl : l.claimAt p with
            | none => rw [hl] at h; cases h
            | some pr =>
                obtain ⟨l2, j⟩ := pr
                rw [hl] at h
                simp only [Option.some.injEq, Prod.mk.injEq] at h
                obtain ⟨rfl, rfl⟩ := h
                obtain ⟨hsz, hcl, hlt, hwf, hdel⟩ := ihl l2 p j hl
                refine ⟨?_, ?_, ?_, ?_, ?_⟩
                · simp only [CTree.size, hsz]
                · simp only [CTree.claimed, hcl]; omega
                · simp only [CTree.size]; omega
                · intro hw
                  simp only [CTree.wfB, Bool.and_eq_true] at hw ⊢
                  exact ⟨hwf hw.1, hw.2⟩
                · intro off
                  simp only [CTree.deliveredFrom, hsz, hdel,
                    Multiset.cons_add]
          · simp only [CTree.claimAt] at h
            cases hr : r.claimAt p with
            | none => rw [hr] at h; cases h
            | some pr =>
                obtain ⟨r2, j⟩ := pr
                rw [hr] at h
                simp only [Option.some.injEq, Prod.mk.injEq] at h
                obtain ⟨rfl, rfl⟩ := h
                obtain ⟨hsz, hcl, hlt, hwf, hdel⟩ := ihr r2 p j hr
                refine ⟨?_, ?_, ?_, ?_, ?_⟩
                · simp only [CTree.size, hsz]
                · simp only [CTree.claimed, hcl]; omega
                · simp only [CTree.size]; omega
                · intro hw
                  simp only [CTree.wfB, Bool.and_eq_true] at hw ⊢
                  exact ⟨hw.1, hwf hw.2⟩
                · intro off
                  rw [show off + (l.size + j) = off + l.size + j by omega]
                  simp only [CTree.deliveredFrom, hdel, Multiset.add_cons]

lemma claimAt_none_of_full (t : CTree) :
    ∀ (p : List Bool), t.wfB = true → t.claimed = t.size → t.claimAt p = none := by
  induction t with
  | leaf s c =>
      intro p _ hfull
      simp only [CTree.claimed, CTree.size] at hfull
      cases p with
      | nil => simp [CTree.claimAt]; omega
      | cons b p => simp [CTree.claimAt]
  | node m l r ihl ihr =>
      intro p hwf hfull
      simp only [CTree.wfB, Bool.and_eq_true] at hwf
      simp only [CTree.claimed, CTree.size] at hfull
      have h1 := claimed_le_size l hwf.1
      have h2 := claimed_le_size r hwf.2
      have hlf : l.claimed = l.size := by omega
      have hrf : r.claimed = r.size := by omega
      cases p with
      | nil => simp [CTree.claimAt]
      | cons b p =>
          cases b
          · simp [CTree.claimAt, ihl p hwf.1 hlf]
          · simp [CTree.claimAt, ihr p hwf.2 hrf]

lemma claimAt_marksOK (t : CTree) :
    ∀ (t2 : CTree) (p : List Bool) (i : Nat), t.wfB = true → t.marksOKB = true →
      t.claimAt p = some (t2, i) → t2.marksOKB = true := by
  induction t with
  | leaf s c =>
      intro t2 p i _ _ h
      cases p with
      | nil =>
          simp only [CTree.claimAt] at h
          by_cases hc : c < s
          · rw [if_pos hc] at h
            simp only [Option.some.injEq, Prod.mk.injEq] at h
            obtain ⟨rfl, rfl⟩ := h
            rfl
          · rw [if_neg hc] at h
            cases h
      | cons b p => simp [CTree.claimAt] at h
  | node m l r ihl ihr =>
      intro t2 p i hwf hok h
      simp only [CTree.wfB, Bool.and_eq_true] at hwf
      simp only [CTree.marksOKB, Bool.and_eq_true, Bool.or_eq_true,
        Bool.not_eq_true'] at hok
      obtain ⟨⟨hm, hokl⟩, hokr⟩ := hok
      cases p with
      | nil => simp [CTree.claimAt] at h
      | cons b p =>
          cases b
          · simp only [CTree.claimAt] at h
            cases hl : l.claimAt p with
            | none => rw [hl] at h; cases h
            | some pr =>
                obtain ⟨l2, j⟩ := pr
                rw [hl] at h
                simp only [Option.some.injEq, Prod.mk.injEq] at h
                obtain ⟨rfl, rfl⟩ := h
                rcases hm with hm | hfull
                · subst hm
                  have hok2 := ihl l2 p j hwf.1 hokl hl
                  simp [CTree.marksOKB, hok2, hokr]
                · simp only [CTree.fullB, beq_iff_eq] at hfull
                  have hnone := claimAt_none_of_full l p hwf.1 hfull.1
                  rw [hnone] at hl
                  cases hl
          · simp only [CTree.claimAt] at h
            cases hr : r.claimAt p with
            | none => rw [hr] at h; cases h
            | some pr =>
                obtain ⟨r2, j⟩ := pr
                rw [hr] at h
                simp only [Option.some.injEq, Prod.mk.injEq] at h
                obtain ⟨rfl, rfl⟩ := h
                rcases hm with hm | hfull
                · subst hm
                  have hok2 := ihr r2 p j hwf.2 hokr hr
                  simp [CTree.marksOKB, hok2, hokl]
                · simp only [CTree.fullB, beq_iff_eq] at hfull
                  have hnone := claimAt_none_of_full r p hwf.2 hfull.2
                  rw [hnone] at hr
                  cases hr

lemma markAt_spec (t : CTree) :
    ∀ (t2 : CTree) (p : List Bool), t.markAt p = some t2 →
      t2.size = t.size ∧ t2.claimed = t.claimed ∧ t2.wfB = t.wfB ∧
        ∀ off, t2.deliveredFrom off = t.deliveredFrom off := by
  induction t with
  | leaf s c =>
      intro t2 p h
      simp [CTree.markAt] at h
  | node m l r ihl ihr =>
      intro t2 p h
      cases p with
      | nil =>
          simp only [CTree.markAt] at h
          by_cases hc : (l.flag && r.flag) = true
          · rw [if_pos hc] at h
            simp only [Option.some.injEq] at h
            subst h
            exact ⟨rfl, rfl, rfl, fun off => rfl⟩
          · rw [if_neg hc] at h
            cases h
      | cons b p =>
          cases b
          · simp only [CTree.markAt] at h
            cases hl : l.markAt p with
            | none => rw [hl] at h; cases h
            | some l2 =>
                rw [hl] at h
                simp only [Option.some.injEq] at h
                subst h
                obtain ⟨hsz, hcl, hwf, hdel⟩ := ihl l2 p hl
                refine ⟨?_, ?_, ?_, ?_⟩
                · simp only [CTree.size, hsz]
                · simp only [CTree.claimed, hcl]
                · simp only [CTree.wfB, hwf]
                · intro off
                  simp only [CTree.deliveredFrom, hsz, hdel]
          · simp only [CTree.markAt] at h
            cases hr : r.markAt p with
            | none => rw [hr] at h; cases h
            | some r2 =>
                rw [hr] at h
                simp only [Option.some.injEq] at h
                subst h
                obtain ⟨hsz, hcl, hwf, hdel⟩ := ihr r2 p hr
                refine ⟨?_, ?_, ?_, ?_⟩
                · simp only [CTree.size, hsz]
                · simp only [CTree.claimed, hcl]
                · simp only [CTree.wfB, hwf]
                · intro off
                  simp only [CTree.deliveredFrom, hdel]

lemma markAt_marksOK (t : CTree) :
    ∀ (t2 : CTree) (p : List Bool), t.wfB = true → t.marksOKB = true →
      t.markAt p = some t2 → t2.marksOKB = true := by
  induction t with
  | leaf s c =>
      intro t2 p _ _ h
      simp [CTree.markAt] at h
  | node m l r ihl ihr =>
      intro t2 p hwf hok h
      simp only [CTree.wfB, Bool.and_eq_true] at hwf
      simp only [CTree.marksOKB, Bool.and_eq_true, Bool.or_eq_true,
        Bool.not_eq_true'] at hok
      obtain ⟨⟨hm, hokl⟩, hokr⟩ := hok
      cases p with
      | nil =>
          simp only [CTree.markAt] at h
          by_cases hc : (l.flag && r.flag) = true
          · rw [if_pos hc] at h
            simp only [Option.some.injEq] at h
            subst h
            simp only [Bool.and_eq_true] at hc
            have hfl := flag_full l hwf.1 hokl hc.1
            have hfr := flag_full r hwf.2 hokr hc.2
            simp [CTree.marksOKB, CTree.fullB, hfl, hfr, hokl, hokr]
          · rw [if_neg hc] at h
            cases h
      | cons b p =>
          cases b
          · simp only [CTree.markAt] at h
            cases hl : l.markAt p with
            | none => rw [hl] at h; cases h
            | some l2 =>
                rw [hl] at h
                simp only [Option.some.injEq] at h
                subst h
                obtain ⟨hsz, hcl, hwfeq, _⟩ := markAt_spec l l2 p hl
                have hok2 := ihl l2 p hwf.1 hokl hl
                rcases hm with hm | hfull
                · subst hm
                  simp [CTree.marksOKB, hok2, hokr]
                · simp only [CTree.marksOKB, Bool.and_eq_true, Bool.or_eq_true,
                    Bool.not_eq_true']
                  refine ⟨⟨Or.inr ?_, hok2⟩, hokr⟩
                  constructor
                  · simp only [CTree.fullB, hcl, hsz]
                    exact hfull.1
                  · exact hfull.2
          · simp only [CTree.markAt] at h
            cases hr : r.markAt p with
            | none => rw [hr] at h; cases h
            | some r2 =>
                rw [hr] at h
                simp only [Option.some.injEq] at h
                subst h
                obtain ⟨hsz, hcl, hwfeq, _⟩ := markAt_spec r r2 p hr
                have hok2 := ihr r2 p hwf.2 hokr hr
                rcases hm with hm | hfull
                · subst hm
                  simp [CTree.marksOKB, hok2, hokl]
                · simp only [CTree.marksOKB, Bool.and_eq_true, Bool.or_eq_true,
                    Bool.not_eq_true']
                  refine ⟨⟨Or.inr ?_, hokl⟩, hok2⟩
                  constructor
                  · exact hfull.1
                  · simp only [CTree.fullB, hcl, hsz]
                    exact hfull.2

lemma buildTree_size (d l : Nat) : (buildTree d l).size = l * 2 ^ d := by
  induction d with
  | zero => simp [buildTree, CTree.size]
  | succ n ih =>
      simp only [buildTree, CTree.size, ih, pow_succ]
      ring

lemma buildTree_claimed (d l : Nat) : (buildTree d l).claimed = 0 := by
  induction d with
  | zero => rfl
  | succ n ih => simp [buildTree, CTree.claimed, ih]

lemma buildTree_wfB (d l : Nat) : (buildTree d l).wfB = true := by
  induction d with
  | zero => simp [buildTree, CTree.wfB]
  | succ n ih => simp [buildTree, CTree.wfB, ih]

lemma buildTree_marksOKB (d l : Nat) : (buildTree d l).marksOKB = true := by
  induction d with
  | zero => rfl
  | succ n ih => simp [buildTree, CTree.marksOKB, ih]

lemma buildTree_delivered (d l : Nat) :
    ∀ off, (buildTree d l).deliveredFrom off = 0 := by
  induction d with
  | zero => intro off; simp [buildTree, CTree.deliveredFrom]
  | succ n ih => intro off; simp [buildTree, CTree.deliveredFrom, ih]

lemma delivered_card (t : CTree) :
    ∀ off, (t.deliveredFrom off).card = t.claimed := by
  induction t with
  | leaf s c =>
      intro off
      simp [CTree.deliveredFrom, CTree.claimed]
  | node m l r ihl ihr =>
      intro off
      simp [CTree.deliveredFrom, CTree.claimed, ihl, ihr]

lemma delivered_full (t : CTree) :
    t.wfB = true → t.claimed = t.size →
      ∀ off, t.deliveredFrom off = (Multiset.range t.size).map (fun k => off + k) := by
  induction t with
  | leaf s c =>
      intro _ hfull off
      simp only [CTree.claimed, CTree.size] at hfull
      subst hfull
      simp [CTree.deliveredFrom, CTree.size]
  | node m l r ihl ihr =>
      intro hwf hfull off
      simp only [CTree.wfB, Bool.and_eq_true] at hwf
      simp only [CTree.claimed, CTree.size] at hfull
      have h1 := claimed_le_size l hwf.1
      have h2 := claimed_le_size r hwf.2
      have hlf : l.claimed = l.size := by omega
      have hrf : r.claimed = r.size := by omega
      simp only [CTree.deliveredFrom, CTree.size, ihl hwf.1 hlf, ihr hwf.2 hrf,
        Multiset.range_add, Multiset.map_add, Multiset.map_map]
      congr 1
      apply Multiset.map_congr rfl
      intro k _
      simp [Function.comp]
      omega

/-- Modelled from the spec: the shared strategy state owned by one distributor
instance — the Sequential strategy's single shared atomic counter, or the
ClaimTree strategy's claim tree. -/
inductive SState where
  | seq (counter : Nat) : SState
  | tree (t : CTree) : SState

/-- Modelled from the spec: one successful atomic claim against the shared
strategy state, delivering index `i`.  The Sequential strategy atomically
advances the shared counter and returns its pre-increment value while that
value is below `count`; the ClaimTree strategy advances the cursor of the leaf
the worker descended to. -/
inductive ClaimStep (count : Nat) : SState → Nat → SState → Prop where
  | seq (c : Nat) : c < count → ClaimStep count (.seq c) c (.seq (c + 1))
  | tree (t t2 : CTree) (p : List Bool) (i : Nat) :
      t.claimAt p = some (t2, i) → ClaimStep count (.tree t) i (.tree t2)

/-- Modelled from the spec: the strategy signals exhaustion — no unclaimed
index remains — so a worker's claim loop returns. -/
def exhausted (count : Nat) : SState → Prop
  | .seq c => count ≤ c
  | .tree t => t.claimed = t.size

/-- Modelled from the spec: an internal bookkeeping step of the ClaimTree
strategy, marking a node whose children report exhaustion; no index is
delivered by it. -/
inductive MarkStep : SState → SState → Prop where
  | mark (t t2 : CTree) (p : List Bool) : t.markAt p = some t2 →
      MarkStep (.tree t) (.tree t2)

/-- Global state of one distribution pass with `W` worker threads: the shared
strategy state, each worker's log of the callback invocations made so far by
its `do_indices` call, and whether each worker's call has returned. -/
structure DState (W : Nat) where
  strat : SState
  logs : Fin W → List Nat
  done : Fin W → Bool

/-- The combined multiset of indices delivered to callback invocations across
all worker threads. -/
def totalLogs {W : Nat} (st : DState W) : Multiset Nat :=
  ∑ th : Fin W, (st.logs th : Multiset Nat)

/-- Modelled from the spec: one interleaving step of a distribution pass.  A
worker whose `do_indices` call has not returned may perform a claim (invoking
the callback on the claimed index, here logged), or return once the strategy
signals exhaustion; the ClaimTree strategy may additionally perform internal
marking steps.  The relation is nondeterministic in the acting thread and in
the claim path, covering every scheduling and every descent/caching policy. -/
inductive Step (count : Nat) {W : Nat} : DState W → DState W → Prop where
  | claim (s s2 : SState) (logs : Fin W → List Nat) (dn : Fin W → Bool)
      (th : Fin W) (i : Nat) :
      dn th = false → ClaimStep count s i s2 →
      Step count ⟨s, logs, dn⟩
        ⟨s2, Function.update logs th (logs th ++ [i]), dn⟩
  | finish (s : SState) (logs : Fin W → List Nat) (dn : Fin W → Bool)
      (th : Fin W) :
      dn th = false → exhausted count s →
      Step count ⟨s, logs, dn⟩ ⟨s, logs, Function.update dn th true⟩
  | mark (s s2 : SState) (logs : Fin W → List Nat) (dn : Fin W → Bool) :
      MarkStep s s2 → Step count ⟨s, logs, dn⟩ ⟨s2, logs, dn⟩

/-- The initial state of a pass: the fresh strategy state, no callback
invocation yet, no worker returned. -/
def initState (s0 : SState) (W : Nat) : DState W :=
  ⟨s0, fun _ => [], fun _ => false⟩

/-- Reachability under interleaved steps of the pass. -/
def Reachable (count : Nat) {W : Nat} (a b : DState W) : Prop :=
  Relation.ReflTransGen (Step count) a b

/-- The multiset of indices the shared strategy state has handed out so far. -/
def deliveredS : SState → Multiset Nat
  | .seq c => Multiset.range c
  | .tree t => t.deliveredFrom 0

/-- Structural well-formedness of the shared strategy state of a pass over
`[0, count)`. -/
def stratWF (count : Nat) : SState → Prop
  | .seq c => c ≤ count
  | .tree t => t.wfB = true ∧ t.marksOKB = true ∧ t.size = count

/-- The pass invariant: the indices delivered to the workers' callbacks are
exactly the indices the strategy has handed out (each exactly once), the
strategy state is well-formed, and a worker has returned only if the strategy
is exhausted. -/
def Inv (count : Nat) {W : Nat} (st : DState W) : Prop :=
  totalLogs st = deliveredS st.strat ∧ stratWF count st.strat ∧
    ∀ th, st.done th = true → exhausted count st.strat

/-- Valid initial strategy states of a pass over `[0, count)`: the Sequential
counter at 0, or a fresh claim tree of `d` complete binary levels over leaves
of size `l` with `count = l * 2 ^ d` (the tiling shape `get_count` produces
for the ClaimTree strategy). -/
def GoodInit (count : Nat) (s0 : SState) : Prop :=
  s0 = .seq 0 ∨ ∃ d l : Nat, s0 = .tree (buildTree d l) ∧ count = l * 2 ^ d

lemma totalLogs_update {W : Nat} (s s2 : SState) (logs : Fin W → List Nat)
    (dn : Fin W → Bool) (th : Fin W) (i : Nat) :
    totalLogs ⟨s2, Function.update logs th (logs th ++ [i]), dn⟩ =
      totalLogs ⟨s, logs, dn⟩ + {i} := by
  simp only [totalLogs]
  have hcongr : ∀ x : Fin W,
      ((Function.update logs th (logs th ++ [i]) x : List Nat) : Multiset Nat) =
        Function.update (fun y => ((logs y : List Nat) : Multiset Nat)) th
          ((logs th : Multiset Nat) + {i}) x := by
    intro x
    by_cases hx : x = th
    · subst hx
      rw [Function.update_same, Function.update_same]
      rw [← Multiset.coe_singleton, Multiset.coe_add]
    · rw [Function.update_noteq hx, Function.update_noteq hx]
  rw [Finset.sum_congr rfl (fun x _ => hcongr x)]
  rw [Finset.sum_update_of_mem (Finset.mem_univ th)]
  rw [Finset.sdiff_singleton_eq_erase]
  rw [← Finset.add_sum_erase Finset.univ
    (fun y => ((logs y : List Nat) : Multiset Nat)) (Finset.mem_univ th)]
  rw [add_right_comm]

lemma inv_step {count W : Nat} (st st2 : DState W) (hs : Step count st st2)
    (h : Inv count st) : Inv count st2 := by
  obtain ⟨hlog, hwf, hdn⟩ := h
  cases hs with
  | claim s s2 logs dn th i hth hc =>
      dsimp only at hlog hwf hdn
      cases hc with
      | seq c hlt =>
          refine ⟨?_, ?_, ?_⟩
          · rw [totalLogs_update (SState.seq i), hlog]
            dsimp only
            simp only [deliveredS]
            rw [Multiset.range_succ, add_comm, Multiset.singleton_add]
          · simp only [stratWF] at hwf ⊢
            omega
          · intro th0 h0
            exfalso
            have hex := hdn th0 h0
            simp only [exhausted] at hex
            omega
      | tree t t2t p i hcl =>
          obtain ⟨hsz, hcl2, hlt, hwfp, hdel⟩ := claimAt_spec t t2t p i hcl
          simp only [stratWF] at hwf
          obtain ⟨hwft, hokt, hszt⟩ := hwf
          refine ⟨?_, ?_, ?_⟩
          · rw [totalLogs_update (SState.tree t), hlog]
            dsimp only
            simp only [deliveredS]
            rw [hdel 0, Nat.zero_add, add_comm, Multiset.singleton_add]
          · exact ⟨hwfp hwft, claimAt_marksOK t t2t p i hwft hokt hcl,
              by rw [hsz]; exact hszt⟩
          · intro th0 h0
            exfalso
            have hex := hdn th0 h0
            simp only [exhausted] at hex
            have hnone := claimAt_none_of_full t p hwft hex
            rw [hnone] at hcl
            cases hcl
  | finish s logs dn th hth hex =>
      dsimp only at hlog hwf hdn
      refine ⟨hlog, hwf, ?_⟩
      intro th0 h0
      dsimp only at h0 ⊢
      by_cases hteq : th0 = th
      · exact hex
      · rw [Function.update_noteq hteq] at h0
        exact hdn th0 h0
  | mark s s2 logs dn hm =>
      cases hm with
      | mark t t2t p hmk =>
          obtain ⟨hsz, hclm, hwfe, hdel⟩ := markAt_spec t t2t p hmk
          dsimp only at hlog hwf hdn
          simp only [stratWF] at hwf
          obtain ⟨hwft, hokt, hszt⟩ := hwf
          refine ⟨?_, ?_, ?_⟩
          · rw [show totalLogs (⟨.tree t2t, logs, dn⟩ : DState W) =
              totalLogs (⟨.tree t, logs, dn⟩ : DState W) from rfl, hlog]
            simp only [deliveredS]
            exact (hdel 0).symm
          · exact ⟨by rw [hwfe]; exact hwft,
              markAt_marksOK t t2t p hwft hokt hmk,
              by rw [hsz]; exact hszt⟩
          · intro th0 h0
            have hex := hdn th0 h0
            simp only [exhausted] at hex ⊢
            rw [hclm, hsz]
            exact hex

lemma inv_init {count W : Nat} (s0 : SState) (h : GoodInit count s0) :
    Inv count (initState s0 W) := by
  have hz : totalLogs (initState s0 W) = 0 := by
    simp [totalLogs, initState]
  refine ⟨?_, ?_, ?_⟩
  · rw [hz]
    rcases h with h | ⟨d, l, hs, hc⟩
    · subst h
      simp [deliveredS, initState]
    · subst hs
      simp [deliveredS, initState, buildTree_delivered]
  · rcases h with h | ⟨d, l, hs, hc⟩
    · subst h
      simp [stratWF, initState]
    · subst hs
      subst hc
      exact ⟨buildTree_wfB d l, buildTree_marksOKB d l, buildTree_size d l⟩
  · intro th h0
    simp [initState] at h0

lemma inv_reachable {count W : Nat} (s0 : SState) (st : DState W)
    (h : GoodInit count s0) (hr : Reachable count (initState s0 W) st) :
    Inv count st := by
  induction hr with
  | refl => exact inv_init s0 h
  | tail _ hstep ih => exact inv_step _ _ hstep ih

lemma totality_full {count W : Nat} (s0 : SState) (st : DState W)
    (h0 : GoodInit count s0) (hW : 0 < W)
    (hr : Reachable count (initState s0 W) st)
    (hdone : ∀ th, st.done th = true) :
    totalLogs st = Multiset.range count ∧ (totalLogs st).Nodup ∧
      ∀ i, i ∈ totalLogs st ↔ i < count := by
  obtain ⟨sst, logs, dn⟩ := st
  obtain ⟨hlog, hwf, hdn⟩ := inv_reachable s0 _ h0 hr
  have hex := hdn ⟨0, hW⟩ (hdone ⟨0, hW⟩)
  have heq : totalLogs (⟨sst, logs, dn⟩ : DState W) = Multiset.range count := by
    rw [hlog]
    cases sst with
    | seq c =>
        simp only [stratWF] at hwf
        simp only [exhausted] at hex
        simp only [deliveredS]
        have hc : c = count := by omega
        rw [hc]
    | tree t =>
        obtain ⟨hwft, hokt, hszt⟩ := hwf
        simp only [exhausted] at hex
        simp only [deliveredS]
        rw [delivered_full t hwft hex 0, hszt]
        rw [Multiset.map_congr rfl (fun k _ => Nat.zero_add k), Multiset.map_id']
  refine ⟨heq, ?_, ?_⟩
  · rw [heq]
    exact Multiset.nodup_range count
  · intro i
    rw [heq]
    exact Multiset.mem_range

/-- C1: for every `count ≥ 0` and every worker count `W ≥ 1`, when `W` threads
concurrently run `do_indices` against one distributor over `[0, count)` —
under either strategy, with arbitrary interleaving — once all calls have
returned, each index in `[0, count)` was delivered to exactly one callback
invocation across all threads: no duplicates, no omissions. -/
theorem doIndices_totality_concurrent (count W : Nat) (s0 : SState)
    (st : DState W) (h0 : GoodInit count s0) (hW : 1 ≤ W)
    (hr : Reachable count (initState s0 W) st)
    (hdone : ∀ th, st.done th = true) :
    totalLogs st = Multiset.range count ∧ (totalLogs st).Nodup ∧
      ∀ i, i ∈ totalLogs st ↔ i < count :=
  totality_full s0 st h0 hW hr hdone

/-- Witness for C1: a completed pass of one worker over an empty ClaimTree
distributor (a single leaf of size 0). -/
theorem doIndices_totality_concurrent_witness :
    totalLogs (⟨.tree (buildTree 0 0), fun _ => [], fun _ => true⟩ : DState 1) =
        Multiset.range 0 ∧
      Multiset.Nodup
        (totalLogs
          (⟨.tree (buildTree 0 0), fun _ => [], fun _ => true⟩ : DState 1)) ∧
      ∀ i, i ∈ totalLogs
          (⟨.tree (buildTree 0 0), fun _ => [], fun _ => true⟩ : DState 1) ↔
        i < 0 := by
  have hupd : Function.update (fun _ : Fin 1 => false) 0 true = fun _ => true := by
    funext x
    rw [Fin.eq_zero x, Function.update_same]
  have hstep : Step 0 (initState (.tree (buildTree 0 0)) 1)
      (⟨.tree (buildTree 0 0), fun _ => [], fun _ => true⟩ : DState 1) := by
    have h1 := @Step.finish 0 1 (SState.tree (buildTree 0 0))
      (fun _ => ([] : List Nat)) (fun _ => false) (0 : Fin 1) rfl (by rfl)
    rw [hupd] at h1
    exact h1
  exact doIndices_totality_concurrent 0 1 (.tree (buildTree 0 0)) _
    (Or.inr ⟨0, 0, rfl, rfl⟩) (by omega)
    (Relation.ReflTransGen.single hstep) (fun th => rfl)

/-- C4: a distributor constructed with `count = 0` is a valid input: in every
reachable state of the pass zero callback invocations have been made, and the
strategy signals exhaustion (so every worker's `do_indices` call may return
immediately). -/
theorem doIndices_empty_range (W : Nat) (s0 : SState) (st : DState W)
    (h0 : GoodInit 0 s0) (hr : Reachable 0 (initState s0 W) st) :
    totalLogs st = 0 ∧ exhausted 0 st.strat := by
  obtain ⟨sst, logs, dn⟩ := st
  obtain ⟨hlog, hwf, hdn⟩ := inv_reachable s0 _ h0 hr
  dsimp only at hlog hwf ⊢
  cases sst with
  | seq c =>
      simp only [stratWF] at hwf
      simp only [exhausted]
      constructor
      · rw [hlog]
        simp only [deliveredS]
        have hc : c = 0 := by omega
        rw [hc]
        rfl
      · omega
  | tree t =>
      obtain ⟨hwft, hokt, hszt⟩ := hwf
      have hle := claimed_le_size t hwft
      have hcl0 : t.claimed = 0 := by omega
      constructor
      · rw [hlog]
        simp only [deliveredS]
        have hcard : (t.deliveredFrom 0).card = 0 := by
          rw [delivered_card]
          exact hcl0
        exact Multiset.card_eq_zero.mp hcard
      · simp only [exhausted]
        omega

/-- Witness for C4: the initial state of a one-worker Sequential pass over an
empty range. -/
theorem doIndices_empty_range_witness :
    totalLogs (initState (SState.seq 0) 1) = 0 ∧
      exhausted 0 (initState (SState.seq 0) 1).strat :=
  doIndices_empty_range 1 (.seq 0) (initState (.seq 0) 1) (Or.inl rfl)
    Relation.ReflTransGen.refl

/-- C5: with a single worker (`W = 1`), under either strategy, a completed
`do_indices` call has invoked the callback exactly once for each index in
`0..count-1`, with no duplicates (order unconstrained: the conclusion only
constrains the multiset of delivered indices). -/
theorem doIndices_single_worker (count : Nat) (s0 : SState) (st : DState 1)
    (h0 : GoodInit count s0) (hr : Reachable count (initState s0 1) st)
    (hdone : st.done 0 = true) :
    totalLogs st = Multiset.range count ∧ (totalLogs st).Nodup ∧
      ∀ i, i ∈ totalLogs st ↔ i < count :=
  totality_full s0 st h0 (by omega) hr
    (fun th => by rw [Fin.eq_zero th]; exact hdone)

/-- Witness for C5: a completed single-worker Sequential pass over an empty
range. -/
theorem doIndices_single_worker_witness :
    totalLogs (⟨.seq 0, fun _ => [], fun _ => true⟩ : DState 1) =
        Multiset.range 0 ∧
      Multiset.Nodup
        (totalLogs (⟨.seq 0, fun _ => [], fun _ => true⟩ : DState 1)) ∧
      ∀ i, i ∈ totalLogs (⟨.seq 0, fun _ => [], fun _ => true⟩ : DState 1) ↔
        i < 0 := by
  have hupd : Function.update (fun _ : Fin 1 => false) 0 true = fun _ => true := by
    funext x
    rw [Fin.eq_zero x, Function.update_same]
  have hstep : Step 0 (initState (.seq 0) 1)
      (⟨.seq 0, fun _ => [], fun _ => true⟩ : DState 1) := by
    have h1 := @Step.finish 0 1 (SState.seq 0) (fun _ => ([] : List Nat))
      (fun _ => false) (0 : Fin 1) rfl (Nat.le_refl 0)
    rw [hupd] at h1
    exact h1
  exact doIndices_single_worker 0 (.seq 0) _ (Or.inl rfl)
    (Relation.ReflTransGen.single hstep) rfl

/-- C6: the Sequential strategy's claim-next operation over the shared counter
initialised to 0: a claim from counter value `c` is possible exactly when
`c < count`, in which case it delivers the pre-increment value `c` and leaves
the counter at `c + 1`; otherwise the strategy signals exhaustion, and in
particular with `count = 0` the very first claim of every caller finds the
strategy exhausted and no claim step exists. -/
theorem sequential_claim_contract :
    (∀ count c i s2, ClaimStep count (.seq c) i s2 ↔
        c < count ∧ i = c ∧ s2 = SState.seq (c + 1)) ∧
      (∀ count c, exhausted count (.seq c) ↔ count ≤ c) ∧
      (∀ i s2, ¬ ClaimStep 0 (.seq 0) i s2) ∧ exhausted 0 (.seq 0) := by
  refine ⟨?_, ?_, ?_, ?_⟩
  · intro count c i s2
    constructor
    · intro h
      cases h with
      | seq c2 hlt => exact ⟨hlt, rfl, rfl⟩
    · rintro ⟨h1, rfl, rfl⟩
      exact ClaimStep.seq _ h1
  · intro count c
    simp only [exhausted]
  · intro i s2 h
    cases h with
    | seq c2 hlt => omega
  · exact Nat.le_refl 0

/-- Witness for C6 at concrete inputs: a claim from counter value 1 over
`count = 3` delivers index 1 and advances the counter to 2; with `count = 0`
no claim step exists from the initial counter and exhaustion is signalled. -/
theorem sequential_claim_contract_witness :
    ClaimStep 3 (.seq 1) 1 (.seq 2) ∧ ¬ ClaimStep 0 (.seq 0) 0 (.seq 1) ∧
      exhausted 0 (.seq 0) :=
  ⟨(sequential_claim_contract.1 3 1 1 (.seq 2)).mpr ⟨by omega, rfl, rfl⟩,
    sequential_claim_contract.2.2.1 0 (.seq 1),
    sequential_claim_contract.2.2.2⟩

/-- C8: in the ClaimTree strategy, in every reachable state of a pass, no
node carries the exhausted marker while one of its children still has an
unclaimed index (an internal node is marked only after all of its children
are individually exhausted). -/
theorem claimTree_marks_sound (W d l : Nat) (st : DState W) (t : CTree)
    (hr : Reachable (l * 2 ^ d) (initState (.tree (buildTree d l)) W) st)
    (hstrat : st.strat = .tree t) : MarksSound t := by
  obtain ⟨hlog, hwf, hdn⟩ := inv_reachable (.tree (buildTree d l)) st
    (Or.inr ⟨d, l, rfl, rfl⟩) hr
  rw [hstrat] at hwf
  simp only [stratWF] at hwf
  exact marksOKB_sound t hwf.2.1

/-- Witness for C8: the initial state of a one-worker pass over a ClaimTree of
one internal level above two leaves of size 2. -/
theorem claimTree_marks_sound_witness : MarksSound (buildTree 1 2) :=
  claimTree_marks_sound 1 1 2 (initState (.tree (buildTree 1 2)) 1)
    (buildTree 1 2) Relation.ReflTransGen.refl rfl

end ZIndexDist
